import Mathlib

/-!
Shallow embedding of `src/timer.c` (the timer subsystem of iperf, based on
Jef Poskanzer's timers.c).

Modelling conventions:
* `struct timespec` becomes `Timespec` with unbounded `Int` fields; the C
  comparisons and arithmetic on `tv_sec`/`tv_nsec` are translated verbatim,
  with C's truncating division/modulus rendered as `Int.tdiv`/`Int.tmod`.
* A `Timer*` node becomes a `Timer` record.  The field `id` plays the role of
  the node's address (the opaque handle identity); `timer_proc` and
  `client_data` are opaque values (callbacks are not interpreted, an
  invocation is recorded as an event).  The `prev`/`next` link fields are
  represented by the node's position in the list that holds it.
* The two global lists `timers` (active, sorted) and `free_timers` (free
  stack) form the state `TmrState`.  List order is head-to-tail link order.
* `malloc` nondeterminism is exposed as an explicit `mallocOk` argument to
  `tmr_create`, and the fresh address as `freshId`.
* The `tmr_run` loop captures `next = t->next` before firing `t`; a resorted
  timer may therefore be re-inserted before the captured resume pointer and
  be skipped for the rest of the pass, or after it and be visited again.
  `tmr_run_loop` models this with a split `front ++ rest`: `rest` begins at
  the captured resume pointer, `front` is the part of the list before it.
  The C loop has no bound, and for some inputs it does not terminate; the
  model takes a fuel argument and reports `completed = false` when fuel runs
  out mid-loop (the partially mutated state is returned as-is).
-/

/-- struct timespec: seconds and nanoseconds. -/
structure Timespec where
  tv_sec : Int
  tv_nsec : Int
deriving DecidableEq

/-- A Timer node of timer.c.  `id` stands for the node's address; the
`prev`/`next` links are represented by list positions. -/
structure Timer where
  id : Nat
  timer_proc : Nat
  client_data : Nat
  nsecs : Int
  periodic : Bool
  time : Timespec
deriving DecidableEq

/-- The two static lists of timer.c: `timers` (active) and `free_timers`. -/
structure TmrState where
  timers : List Timer
  free_timers : List Timer
deriving DecidableEq

/-- Outcome of a `tmr_run` call: final lists, the sequence of callback
invocations (in order), and whether the loop exited normally (`completed`)
or the model's fuel ran out mid-loop. -/
structure RunResult where
  timers : List Timer
  free_timers : List Timer
  fired : List Timer
  completed : Bool
deriving DecidableEq

/-- The strict comparison used throughout timer.c:
`a.tv_sec < b.tv_sec || (a.tv_sec == b.tv_sec && a.tv_nsec < b.tv_nsec)`. -/
def ts_lt (a b : Timespec) : Bool :=
  decide (a.tv_sec < b.tv_sec) ||
    (decide (a.tv_sec = b.tv_sec) && decide (a.tv_nsec < b.tv_nsec))

/-- Denotation of a timespec as a count of nanoseconds. -/
def ts_denote (t : Timespec) : Int :=
  t.tv_sec * 1000000000 + t.tv_nsec

/-- add_nsecs of timer.c.  C's `/` and `%` on signed integers truncate
toward zero, hence `Int.tdiv` / `Int.tmod`.  Only an overflowing
(`>= 1e9`) nanosecond component is renormalized, exactly as in the source. -/
def add_nsecs (t : Timespec) (nsecs : Int) : Timespec :=
  let sec := t.tv_sec + Int.tdiv nsecs 1000000000
  let nsec := t.tv_nsec + Int.tmod nsecs 1000000000
  if 1000000000 ≤ nsec then
    { tv_sec := sec + Int.tdiv nsec 1000000000, tv_nsec := Int.tmod nsec 1000000000 }
  else
    { tv_sec := sec, tv_nsec := nsec }

/-- list_add of timer.c: walk from the head and insert before the first
entry whose time is strictly greater (the empty-list and new-head special
cases of the source collapse into the same comparison). -/
def list_add (t : Timer) : List Timer → List Timer
  | [] => [t]
  | t2 :: rest => if ts_lt t.time t2.time then t :: t2 :: rest else t2 :: list_add t rest

/-- list_remove of timer.c: unlink the node `t` (identified by its address
`id`) from the active list. -/
def list_remove (t : Timer) (l : List Timer) : List Timer :=
  l.eraseP (fun x => x.id == t.id)

/-- list_resort of timer.c: remove the node, then add it back (with its
updated time) at the correct sorted position.  The updated node is passed
as `t`. -/
def list_resort (t : Timer) (l : List Timer) : List Timer :=
  list_add t (list_remove t l)

/-- tmr_create of timer.c.  `now` is the (already looked up) current time,
`mallocOk` tells whether malloc would succeed, `freshId` is the address a
fresh allocation would get.  When the free list is non-empty its head node
is reused: only its address survives, every other field is overwritten. -/
def tmr_create (now : Timespec) (timer_proc client_data : Nat) (nsecs : Int)
    (periodic : Bool) (mallocOk : Bool) (freshId : Nat) (s : TmrState) :
    Option Timer × TmrState :=
  match s.free_timers with
  | t :: rest =>
    let t' : Timer :=
      { id := t.id, timer_proc := timer_proc, client_data := client_data,
        nsecs := nsecs, periodic := periodic, time := add_nsecs now nsecs }
    (some t', { timers := list_add t' s.timers, free_timers := rest })
  | [] =>
    if mallocOk then
      let t' : Timer :=
        { id := freshId, timer_proc := timer_proc, client_data := client_data,
          nsecs := nsecs, periodic := periodic, time := add_nsecs now nsecs }
      (some t', { timers := list_add t' s.timers, free_timers := [] })
    else
      (none, s)

/-- tmr_timeout of timer.c: time until the earliest deadline, clamped at
zero, split back into seconds/nanoseconds with truncating division. -/
def tmr_timeout (now : Timespec) (s : TmrState) : Option Timespec :=
  match s.timers with
  | [] => none
  | t :: _ =>
    let nsecs0 := (t.time.tv_sec - now.tv_sec) * 1000000000 +
      (t.time.tv_nsec - now.tv_nsec)
    let nsecs := if nsecs0 ≤ 0 then 0 else nsecs0
    some { tv_sec := Int.tdiv nsecs 1000000000, tv_nsec := Int.tmod nsecs 1000000000 }

/-- tmr_cancel of timer.c: unlink from the active list, push onto the head
of the free list (the node's fields are not cleared). -/
def tmr_cancel (t : Timer) (s : TmrState) : TmrState :=
  { timers := list_remove t s.timers, free_timers := t :: s.free_timers }

/-- The loop body of tmr_run.  `rest` starts at the node the C iterator is
about to visit (the captured `next` pointer); `front` is the portion of the
active list before it.  On each step the head `t` of `rest` is examined:
stop if `t.time > now`; otherwise fire it, then either reschedule (advance
its time by its interval and re-insert it into the whole list, resuming at
the previously captured successor) or cancel it.  Fuel bounds the number of
iterations; exhaustion returns the in-progress state with
`completed = false`. -/
def tmr_run_loop (now : Timespec) :
    Nat → List Timer → List Timer → List Timer → List Timer → RunResult
  | 0, front, rest, free, fired => ⟨front ++ rest, free, fired, false⟩
  | fuel + 1, front, rest, free, fired =>
    match rest with
    | [] => ⟨front, free, fired, true⟩
    | t :: rest' =>
      if ts_lt now t.time then ⟨front ++ t :: rest', free, fired, true⟩
      else if t.periodic then
        let t' : Timer := { t with time := add_nsecs t.time t.nsecs }
        let full := list_add t' (front ++ rest')
        match rest' with
        | [] => tmr_run_loop now fuel full [] free (fired ++ [t])
        | h :: _ =>
          tmr_run_loop now fuel (full.takeWhile fun x => x.id != h.id)
            (full.dropWhile fun x => x.id != h.id) free (fired ++ [t])
      else
        tmr_run_loop now fuel front rest' (t :: free) (fired ++ [t])

/-- tmr_run of timer.c, starting the loop at the head of the active list. -/
def tmr_run (now : Timespec) (fuel : Nat) (s : TmrState) : RunResult :=
  tmr_run_loop now fuel [] s.timers s.free_timers []

/-- tmr_reset of timer.c: recompute the node's time as `now + nsecs` and
resort it. -/
def tmr_reset (now : Timespec) (t : Timer) (s : TmrState) : TmrState :=
  { s with
    timers := list_resort { t with time := add_nsecs now t.nsecs } s.timers }

/-- The free-list draining loop of tmr_cleanup: pop and release until
empty. -/
def tmr_cleanup_free : List Timer → List Timer
  | [] => []
  | _ :: rest => tmr_cleanup_free rest

/-- tmr_cleanup of timer.c: drain the free list; the active list is not
touched. -/
def tmr_cleanup (s : TmrState) : TmrState :=
  { timers := s.timers, free_timers := tmr_cleanup_free s.free_timers }

/-- The active list is non-decreasing by `(tv_sec, tv_nsec)` head-to-tail:
no later entry is strictly below an earlier one. -/
def SortedT (l : List Timer) : Prop :=
  l.Pairwise fun a b => ts_lt b.time a.time = false

/-- One public operation of the lifecycle API, with every external input
(current time, allocator behaviour, fresh address, fuel) made explicit.
`cancel`/`reset` designate the timer by handle identity; they act on the
active node with that id and are no-ops on a dangling handle (the C
contract makes that case undefined). -/
inductive Op where
  | create (now : Timespec) (timer_proc client_data : Nat) (nsecs : Int)
      (periodic : Bool) (mallocOk : Bool) (freshId : Nat)
  | cancel (tid : Nat)
  | reset (now : Timespec) (tid : Nat)
  | run (now : Timespec) (fuel : Nat)

/-- Apply one operation to the subsystem state. -/
def applyOp (s : TmrState) : Op → TmrState
  | Op.create now proc data nsecs periodic mallocOk freshId =>
    (tmr_create now proc data nsecs periodic mallocOk freshId s).2
  | Op.cancel tid =>
    match s.timers.find? (fun x => x.id == tid) with
    | some t => tmr_cancel t s
    | none => s
  | Op.reset now tid =>
    match s.timers.find? (fun x => x.id == tid) with
    | some t => tmr_reset now t s
    | none => s
  | Op.run now fuel =>
    let r := tmr_run now fuel s
    { timers := r.timers, free_timers := r.free_timers }

/-- The process-start state: both lists empty. -/
def initState : TmrState := { timers := [], free_timers := [] }

instance (l : List Timer) : Decidable (SortedT l) :=
  inferInstanceAs (Decidable (l.Pairwise _))

theorem ts_lt_iff (a b : Timespec) :
    ts_lt a b = true ↔
      (a.tv_sec < b.tv_sec ∨ (a.tv_sec = b.tv_sec ∧ a.tv_nsec < b.tv_nsec)) := by
  simp [ts_lt]

theorem ts_lt_eq_false (a b : Timespec) :
    ts_lt a b = false ↔
      ¬(a.tv_sec < b.tv_sec ∨ (a.tv_sec = b.tv_sec ∧ a.tv_nsec < b.tv_nsec)) := by
  rw [← ts_lt_iff]
  cases h : ts_lt a b <;> simp [h]

theorem ts_irrefl (a : Timespec) : ts_lt a a = false := by
  simp only [ts_lt_eq_false]; omega

theorem ts_asymm {a b : Timespec} (h : ts_lt a b = true) : ts_lt b a = false := by
  simp only [ts_lt_iff] at h
  simp only [ts_lt_eq_false]; omega

theorem ts_le_trans {a b c : Timespec} (h1 : ts_lt b a = false)
    (h2 : ts_lt c b = false) : ts_lt c a = false := by
  simp only [ts_lt_eq_false] at h1 h2 ⊢; omega

theorem ts_lt_le {a b c : Timespec} (h1 : ts_lt a b = true)
    (h2 : ts_lt c b = false) : ts_lt a c = true := by
  simp only [ts_lt_iff] at h1 ⊢
  simp only [ts_lt_eq_false] at h2
  omega

theorem ts_between {now e f : Timespec} (h1 : ts_lt now e = false)
    (h2 : ts_lt now f = true) : ts_lt f e = false := by
  simp only [ts_lt_iff] at h2
  simp only [ts_lt_eq_false] at h1 ⊢
  omega

theorem list_add_eq (t : Timer) (l : List Timer) :
    list_add t l = l.takeWhile (fun x => !ts_lt t.time x.time) ++
      t :: l.dropWhile (fun x => !ts_lt t.time x.time) := by
  induction l with
  | nil => rfl
  | cons a l ih =>
    cases h : ts_lt t.time a.time with
    | false => simp [list_add, h, List.takeWhile_cons, List.dropWhile_cons, ih]
    | true => simp [list_add, h, List.takeWhile_cons, List.dropWhile_cons]

theorem list_add_decomp (t : Timer) (l : List Timer) :
    ∃ l1 l2, l = l1 ++ l2 ∧ list_add t l = l1 ++ t :: l2 :=
  ⟨_, _, (List.takeWhile_append_dropWhile _ _).symm, list_add_eq t l⟩

theorem list_add_perm (t : Timer) (l : List Timer) :
    List.Perm (list_add t l) (t :: l) := by
  obtain ⟨l1, l2, h1, h2⟩ := list_add_decomp t l
  rw [h2, h1]
  exact List.perm_middle

theorem mem_list_add {y t : Timer} {l : List Timer} :
    y ∈ list_add t l ↔ y = t ∨ y ∈ l := by
  rw [(list_add_perm t l).mem_iff]; simp

theorem filter_list_add_neg (p : Timer → Bool) (t : Timer) (l : List Timer)
    (h : p t = false) : (list_add t l).filter p = l.filter p := by
  obtain ⟨l1, l2, h1, h2⟩ := list_add_decomp t l
  rw [h2, h1]
  simp [List.filter_append, List.filter_cons, h]

theorem filter_list_add_pos (p : Timer → Bool) (t : Timer) (l : List Timer)
    (h : p t = true) (hl : ∀ x ∈ l, p x = false) :
    (list_add t l).filter p = [t] := by
  obtain ⟨l1, l2, h1, h2⟩ := list_add_decomp t l
  have k1 : l1.filter p = [] := by
    rw [List.filter_eq_nil_iff]
    intro a ha
    simp [hl a (h1 ▸ List.mem_append.mpr (Or.inl ha))]
  have k2 : l2.filter p = [] := by
    rw [List.filter_eq_nil_iff]
    intro a ha
    simp [hl a (h1 ▸ List.mem_append.mpr (Or.inr ha))]
  rw [h2]
  simp [List.filter_append, List.filter_cons, h, k1, k2]

theorem list_add_append (t : Timer) (d X : List Timer)
    (h : ∀ e ∈ d, ts_lt t.time e.time = false) :
    list_add t (d ++ X) = d ++ list_add t X := by
  induction d with
  | nil => rfl
  | cons a d ih =>
    have ha : ts_lt t.time a.time = false := h a (by simp)
    simp only [List.cons_append, list_add, ha]
    simp [ih fun e he => h e (by simp [he])]

theorem sorted_list_add (t : Timer) {l : List Timer} (h : SortedT l) :
    SortedT (list_add t l) := by
  induction l with
  | nil =>
    simp [SortedT, list_add]
  | cons a l ih =>
    rw [SortedT, List.pairwise_cons] at h
    obtain ⟨ha, hl⟩ := h
    cases hc : ts_lt t.time a.time with
    | true =>
      simp only [list_add, hc, if_true]
      rw [SortedT, List.pairwise_cons]
      refine ⟨?_, List.pairwise_cons.mpr ⟨ha, hl⟩⟩
      intro b hb
      rcases List.mem_cons.mp hb with rfl | hb
      · exact ts_asymm hc
      · exact ts_asymm (ts_lt_le hc (ha b hb))
    | false =>
      simp only [list_add, hc, Bool.false_eq_true, if_false]
      rw [SortedT, List.pairwise_cons]
      constructor
      · intro b hb
        rcases mem_list_add.mp hb with rfl | hb
        · exact hc
        · exact ha b hb
      · exact ih hl

theorem sorted_dropWhile_gt (a : Timespec) {l : List Timer} (h : SortedT l) :
    ∀ y ∈ l.dropWhile (fun x => !ts_lt a x.time), ts_lt a y.time = true := by
  induction l with
  | nil => simp
  | cons b l ih =>
    rw [SortedT, List.pairwise_cons] at h
    obtain ⟨hb, hl⟩ := h
    intro y hy
    rw [List.dropWhile_cons] at hy
    cases hc : ts_lt a b.time with
    | true =>
      simp [hc] at hy
      rcases hy with rfl | hy
      · exact hc
      · exact ts_lt_le hc (hb y hy)
    | false =>
      simp [hc] at hy
      exact ih hl y hy

theorem add_nsecs_denote (t : Timespec) (d : Int) :
    ts_denote (add_nsecs t d) = ts_denote t + d := by
  obtain ⟨ts, tn⟩ := t
  have h1 := Int.tdiv_add_tmod d 1000000000
  have h2 := Int.tdiv_add_tmod (tn + Int.tmod d 1000000000) 1000000000
  simp only [add_nsecs, ts_denote]
  split_ifs with hge <;> dsimp only <;> omega

theorem add_nsecs_nsec_range (t : Timespec) (d : Int) (h0 : 0 ≤ t.tv_nsec)
    (h1 : t.tv_nsec < 1000000000) (hd : 0 ≤ d) :
    0 ≤ (add_nsecs t d).tv_nsec ∧ (add_nsecs t d).tv_nsec < 1000000000 := by
  obtain ⟨ts, tn⟩ := t
  simp only at h0 h1
  have hr0 : 0 ≤ Int.tmod d 1000000000 := Int.tmod_nonneg 1000000000 hd
  have hr1 : Int.tmod d 1000000000 < 1000000000 :=
    Int.tmod_lt_of_pos d (by omega)
  simp only [add_nsecs]
  split_ifs with hge
  · have h2 : 0 ≤ Int.tmod (tn + Int.tmod d 1000000000) 1000000000 :=
      Int.tmod_nonneg 1000000000 (by omega)
    have h3 : Int.tmod (tn + Int.tmod d 1000000000) 1000000000 < 1000000000 :=
      Int.tmod_lt_of_pos _ (by omega)
    exact ⟨h2, h3⟩
  · dsimp only
    exact ⟨by omega, by omega⟩

/-- Claim C5 (amended): for a normalized timestamp, add_nsecs always
produces a timestamp denoting exactly the input plus the duration, and for
a NONNEGATIVE duration the nanosecond component stays in [0, 1e9) with the
overflow carried into the seconds.  (For a negative duration the code does
not renormalize a negative nanosecond component; see the counterexample.) -/
theorem add_nsecs_spec (t : Timespec) (d : Int) (h0 : 0 ≤ t.tv_nsec)
    (h1 : t.tv_nsec < 1000000000) :
    ts_denote (add_nsecs t d) = ts_denote t + d ∧
    (0 ≤ d → 0 ≤ (add_nsecs t d).tv_nsec ∧ (add_nsecs t d).tv_nsec < 1000000000) :=
  ⟨add_nsecs_denote t d, fun hd => add_nsecs_nsec_range t d h0 h1 hd⟩

/-- Claim C5, counterexample to the original statement: adding the signed
duration -1 ns to the normalized timestamp (0 s, 0 ns) yields a nanosecond
component of -1, outside [0, 1e9): the carry in the source only handles
nsec overflow (>= 1e9), never a negative nsec. -/
theorem add_nsecs_cex :
    0 ≤ (⟨0, 0⟩ : Timespec).tv_nsec ∧ (⟨0, 0⟩ : Timespec).tv_nsec < 1000000000 ∧
    (add_nsecs ⟨0, 0⟩ (-1)).tv_nsec = -1 := by decide

theorem add_nsecs_spec_witness :
    ts_denote (add_nsecs ⟨5, 500000000⟩ 2500000000) =
      ts_denote ⟨5, 500000000⟩ + 2500000000 ∧
    0 ≤ (add_nsecs ⟨5, 500000000⟩ 2500000000).tv_nsec ∧
    (add_nsecs ⟨5, 500000000⟩ 2500000000).tv_nsec < 1000000000 :=
  ⟨(add_nsecs_spec ⟨5, 500000000⟩ 2500000000 (by decide) (by decide)).1,
   (add_nsecs_spec ⟨5, 500000000⟩ 2500000000 (by decide) (by decide)).2 (by decide)⟩

/-- Claim C4 (confirmed): tmr_timeout returns none exactly when the active
list is empty; otherwise it returns a timespec denoting
max(0, earliest.expiry - now), whose components are never negative (and the
nanosecond component is properly normalized). -/
theorem tmr_timeout_spec (now : Timespec) (s : TmrState) :
    (tmr_timeout now s = none ↔ s.timers = []) ∧
    (∀ t rest, s.timers = t :: rest →
      ∃ r, tmr_timeout now s = some r ∧
        ts_denote r = max 0 (ts_denote t.time - ts_denote now) ∧
        0 ≤ r.tv_sec ∧ 0 ≤ r.tv_nsec ∧ r.tv_nsec < 1000000000) := by
  obtain ⟨act, free⟩ := s
  cases act with
  | nil => exact ⟨by simp [tmr_timeout], by intro t rest h; cases h⟩
  | cons a l =>
    constructor
    · simp [tmr_timeout]
    · intro t rest h
      have ht : t = a := by injection h with h1 h2; exact h1.symm
      subst ht
      simp only [tmr_timeout]
      set n0 : Int := (t.time.tv_sec - now.tv_sec) * 1000000000 +
        (t.time.tv_nsec - now.tv_nsec) with hn0
      have hden : n0 = ts_denote t.time - ts_denote now := by
        rw [hn0]; unfold ts_denote; ring
      by_cases hc : n0 ≤ 0
      · rw [if_pos hc]
        refine ⟨⟨0, 0⟩, by decide, ?_, by decide, by decide, by decide⟩
        rw [max_eq_left (by omega)]
        simp [ts_denote]
      · have hpos : 0 < n0 := by omega
        have h2 := Int.tdiv_add_tmod n0 1000000000
        have h3 : 0 ≤ Int.tmod n0 1000000000 :=
          Int.tmod_nonneg 1000000000 (by omega)
        have h4 : Int.tmod n0 1000000000 < 1000000000 :=
          Int.tmod_lt_of_pos n0 (by omega)
        rw [if_neg hc]
        refine ⟨⟨Int.tdiv n0 1000000000, Int.tmod n0 1000000000⟩, rfl, ?_, ?_, h3, h4⟩
        · rw [max_eq_right (by omega), ← hden]
          simp only [ts_denote]
          omega
        · dsimp only
          omega

theorem tmr_timeout_spec_witness :
    ∃ r, tmr_timeout ⟨3, 700000000⟩
        ⟨[⟨0, 0, 0, 0, true, ⟨5, 0⟩⟩], []⟩ = some r ∧
      ts_denote r =
        max 0 (ts_denote (⟨5, 0⟩ : Timespec) - ts_denote ⟨3, 700000000⟩) ∧
      0 ≤ r.tv_sec ∧ 0 ≤ r.tv_nsec ∧ r.tv_nsec < 1000000000 :=
  (tmr_timeout_spec ⟨3, 700000000⟩ ⟨[⟨0, 0, 0, 0, true, ⟨5, 0⟩⟩], []⟩).2
    ⟨0, 0, 0, 0, true, ⟨5, 0⟩⟩ [] rfl

/-- Claim C6 (confirmed): tmr_create returns no timer exactly when the free
list is empty and malloc fails; in that case the whole state is returned
unchanged (no partial insertion); and when the free list is non-empty the
head record is popped from it instead of allocating. -/
theorem tmr_create_alloc_spec (now : Timespec) (proc data : Nat) (nsecs : Int)
    (periodic : Bool) (mallocOk : Bool) (freshId : Nat) (s : TmrState) :
    ((tmr_create now proc data nsecs periodic mallocOk freshId s).1 = none ↔
      s.free_timers = [] ∧ mallocOk = false) ∧
    ((tmr_create now proc data nsecs periodic mallocOk freshId s).1 = none →
      (tmr_create now proc data nsecs periodic mallocOk freshId s).2 = s) ∧
    (∀ u rest, s.free_timers = u :: rest →
      ∃ v, (tmr_create now proc data nsecs periodic mallocOk freshId s).1 = some v ∧
        (tmr_create now proc data nsecs periodic mallocOk freshId s).2.free_timers
          = rest) := by
  obtain ⟨act, free⟩ := s
  cases free with
  | nil =>
    cases mallocOk <;>
      simp [tmr_create]
  | cons u l =>
    refine ⟨by simp [tmr_create], by simp [tmr_create], ?_⟩
    intro u' rest h
    have h2 : l = rest := by injection h
    subst h2
    exact ⟨_, rfl, rfl⟩

theorem tmr_create_alloc_spec_witness :
    ∃ v, (tmr_create ⟨0, 0⟩ 7 8 5 false true 9
        ⟨[], [⟨3, 1, 2, 4, true, ⟨9, 9⟩⟩]⟩).1 = some v ∧
      (tmr_create ⟨0, 0⟩ 7 8 5 false true 9
        ⟨[], [⟨3, 1, 2, 4, true, ⟨9, 9⟩⟩]⟩).2.free_timers = [] :=
  (tmr_create_alloc_spec ⟨0, 0⟩ 7 8 5 false true 9
    ⟨[], [⟨3, 1, 2, 4, true, ⟨9, 9⟩⟩]⟩).2.2 ⟨3, 1, 2, 4, true, ⟨9, 9⟩⟩ [] rfl

/-- Claim C7 (confirmed): when tmr_create reuses a record from the free
list, every field of the returned timer is freshly set from the call's
arguments (callback, user data, interval, periodic flag, expiry computed
as now + interval); nothing of the record's previous use survives except
its address, and its list links are rebuilt by the sorted insertion. -/
theorem tmr_create_reuse_spec (now : Timespec) (proc data : Nat) (nsecs : Int)
    (periodic : Bool) (mallocOk : Bool) (freshId : Nat) (s : TmrState)
    (u : Timer) (rest : List Timer) (h : s.free_timers = u :: rest) :
    ∃ v, (tmr_create now proc data nsecs periodic mallocOk freshId s).1 = some v ∧
      v.id = u.id ∧ v.timer_proc = proc ∧ v.client_data = data ∧
      v.nsecs = nsecs ∧ v.periodic = periodic ∧ v.time = add_nsecs now nsecs ∧
      (tmr_create now proc data nsecs periodic mallocOk freshId s).2.timers =
        list_add v s.timers := by
  obtain ⟨act, free⟩ := s
  simp only at h
  subst h
  exact ⟨_, rfl, rfl, rfl, rfl, rfl, rfl, rfl, rfl⟩

theorem tmr_create_reuse_spec_witness :
    ∃ v, (tmr_create ⟨1, 0⟩ 10 11 2000000000 true false 99
        ⟨[], [⟨5, 42, 43, -7, false, ⟨123, 456⟩⟩]⟩).1 = some v ∧
      v.id = 5 ∧ v.timer_proc = 10 ∧ v.client_data = 11 ∧
      v.nsecs = 2000000000 ∧ v.periodic = true ∧
      v.time = add_nsecs ⟨1, 0⟩ 2000000000 ∧
      (tmr_create ⟨1, 0⟩ 10 11 2000000000 true false 99
        ⟨[], [⟨5, 42, 43, -7, false, ⟨123, 456⟩⟩]⟩).2.timers = list_add v [] :=
  tmr_create_reuse_spec ⟨1, 0⟩ 10 11 2000000000 true false 99
    ⟨[], [⟨5, 42, 43, -7, false, ⟨123, 456⟩⟩]⟩ ⟨5, 42, 43, -7, false, ⟨123, 456⟩⟩
    [] rfl

/-- Claim C9 (confirmed): tmr_cleanup empties the free list, leaves the
active list entirely unchanged, and is a no-op on a state whose free list
is already empty. -/
theorem tmr_cleanup_spec (s : TmrState) :
    (tmr_cleanup s).free_timers = [] ∧ (tmr_cleanup s).timers = s.timers ∧
    (s.free_timers = [] → tmr_cleanup s = s) := by
  have hempty : ∀ l : List Timer, tmr_cleanup_free l = [] := by
    intro l; induction l <;> simp [tmr_cleanup_free, *]
  refine ⟨hempty _, rfl, ?_⟩
  intro h
  obtain ⟨act, free⟩ := s
  simp only at h
  subst h
  simp [tmr_cleanup, tmr_cleanup_free]

theorem tmr_cleanup_spec_witness :
    (tmr_cleanup ⟨[⟨0, 1, 2, 3, true, ⟨4, 5⟩⟩], []⟩).free_timers = [] ∧
    (tmr_cleanup ⟨[⟨0, 1, 2, 3, true, ⟨4, 5⟩⟩], []⟩).timers =
      (⟨[⟨0, 1, 2, 3, true, ⟨4, 5⟩⟩], []⟩ : TmrState).timers ∧
    tmr_cleanup ⟨[⟨0, 1, 2, 3, true, ⟨4, 5⟩⟩], []⟩ =
      ⟨[⟨0, 1, 2, 3, true, ⟨4, 5⟩⟩], []⟩ :=
  ⟨(tmr_cleanup_spec ⟨[⟨0, 1, 2, 3, true, ⟨4, 5⟩⟩], []⟩).1,
   (tmr_cleanup_spec ⟨[⟨0, 1, 2, 3, true, ⟨4, 5⟩⟩], []⟩).2.1,
   (tmr_cleanup_spec ⟨[⟨0, 1, 2, 3, true, ⟨4, 5⟩⟩], []⟩).2.2 rfl⟩

/-- Claim C10 (confirmed): the free list is LIFO.  tmr_cancel pushes the
canceled record onto the head of the free list; tmr_create with a non-empty
free list returns exactly the head record (and pops it); hence cancel of a
timer immediately followed by create returns a handle with the canceled
timer's identity and restores the original free list. -/
theorem free_list_lifo_spec (s : TmrState) (t : Timer) (now : Timespec)
    (proc data : Nat) (nsecs : Int) (periodic : Bool) (mallocOk : Bool)
    (freshId : Nat) (u : Timer) (l act : List Timer) :
    (tmr_cancel t s).free_timers = t :: s.free_timers ∧
    (∃ v, (tmr_create now proc data nsecs periodic mallocOk freshId
        ⟨act, u :: l⟩).1 = some v ∧ v.id = u.id ∧
      (tmr_create now proc data nsecs periodic mallocOk freshId
        ⟨act, u :: l⟩).2.free_timers = l) ∧
    (∃ v, (tmr_create now proc data nsecs periodic mallocOk freshId
        (tmr_cancel t s)).1 = some v ∧ v.id = t.id ∧
      (tmr_create now proc data nsecs periodic mallocOk freshId
        (tmr_cancel t s)).2.free_timers = s.free_timers) :=
  ⟨rfl, ⟨_, rfl, rfl, rfl⟩, ⟨_, rfl, rfl, rfl⟩⟩

/-- Claim C8 (confirmed): inserting a timer into a sorted active list
places it exactly after the prefix of entries that are not strictly
greater — in particular after every existing entry with an equal deadline —
and before exactly the entries with a strictly greater deadline, so
insertion is stable for equal deadlines. -/
theorem list_add_stable_spec (t : Timer) (l : List Timer) (hs : SortedT l) :
    list_add t l = l.takeWhile (fun x => !ts_lt t.time x.time) ++
      t :: l.dropWhile (fun x => !ts_lt t.time x.time) ∧
    (∀ x ∈ l.takeWhile (fun x => !ts_lt t.time x.time),
      ts_lt t.time x.time = false) ∧
    (∀ x ∈ l.dropWhile (fun x => !ts_lt t.time x.time),
      ts_lt t.time x.time = true) ∧
    (∀ x ∈ l, x.time = t.time →
      x ∈ l.takeWhile (fun x => !ts_lt t.time x.time)) := by
  refine ⟨list_add_eq t l, ?_, sorted_dropWhile_gt t.time hs, ?_⟩
  · intro x hx
    have h := List.mem_takeWhile_imp hx
    simpa using h
  · intro x hx hxt
    have hsplit := List.takeWhile_append_dropWhile
      (p := fun x => !ts_lt t.time x.time) (l := l)
    rw [← hsplit] at hx
    rcases List.mem_append.mp hx with hx | hx
    · exact hx
    · have := sorted_dropWhile_gt t.time hs x hx
      rw [hxt] at this
      rw [ts_irrefl t.time] at this
      cases this

theorem list_add_stable_spec_witness :
    list_add (⟨9, 9, 9, 9, false, ⟨2, 0⟩⟩ : Timer)
        [⟨0, 0, 0, 0, false, ⟨1, 0⟩⟩, ⟨1, 0, 0, 0, false, ⟨2, 0⟩⟩,
         ⟨2, 0, 0, 0, false, ⟨2, 0⟩⟩, ⟨3, 0, 0, 0, false, ⟨3, 0⟩⟩] =
      List.takeWhile
          (fun (x : Timer) => !ts_lt (⟨9, 9, 9, 9, false, ⟨2, 0⟩⟩ : Timer).time x.time)
          [⟨0, 0, 0, 0, false, ⟨1, 0⟩⟩, ⟨1, 0, 0, 0, false, ⟨2, 0⟩⟩,
           ⟨2, 0, 0, 0, false, ⟨2, 0⟩⟩, ⟨3, 0, 0, 0, false, ⟨3, 0⟩⟩] ++
        (⟨9, 9, 9, 9, false, ⟨2, 0⟩⟩ : Timer) ::
          List.dropWhile
            (fun (x : Timer) => !ts_lt (⟨9, 9, 9, 9, false, ⟨2, 0⟩⟩ : Timer).time x.time)
            [⟨0, 0, 0, 0, false, ⟨1, 0⟩⟩, ⟨1, 0, 0, 0, false, ⟨2, 0⟩⟩,
             ⟨2, 0, 0, 0, false, ⟨2, 0⟩⟩, ⟨3, 0, 0, 0, false, ⟨3, 0⟩⟩] ∧
    (∀ x ∈ List.takeWhile
          (fun (x : Timer) => !ts_lt (⟨9, 9, 9, 9, false, ⟨2, 0⟩⟩ : Timer).time x.time)
          [⟨0, 0, 0, 0, false, ⟨1, 0⟩⟩, ⟨1, 0, 0, 0, false, ⟨2, 0⟩⟩,
           ⟨2, 0, 0, 0, false, ⟨2, 0⟩⟩, ⟨3, 0, 0, 0, false, ⟨3, 0⟩⟩],
      ts_lt (⟨9, 9, 9, 9, false, ⟨2, 0⟩⟩ : Timer).time x.time = false) ∧
    (∀ x ∈ List.dropWhile
          (fun (x : Timer) => !ts_lt (⟨9, 9, 9, 9, false, ⟨2, 0⟩⟩ : Timer).time x.time)
          [⟨0, 0, 0, 0, false, ⟨1, 0⟩⟩, ⟨1, 0, 0, 0, false, ⟨2, 0⟩⟩,
           ⟨2, 0, 0, 0, false, ⟨2, 0⟩⟩, ⟨3, 0, 0, 0, false, ⟨3, 0⟩⟩],
      ts_lt (⟨9, 9, 9, 9, false, ⟨2, 0⟩⟩ : Timer).time x.time = true) ∧
    (∀ x ∈ [(⟨0, 0, 0, 0, false, ⟨1, 0⟩⟩ : Timer), ⟨1, 0, 0, 0, false, ⟨2, 0⟩⟩,
         ⟨2, 0, 0, 0, false, ⟨2, 0⟩⟩, ⟨3, 0, 0, 0, false, ⟨3, 0⟩⟩],
      x.time = (⟨9, 9, 9, 9, false, ⟨2, 0⟩⟩ : Timer).time →
        x ∈ List.takeWhile
          (fun (x : Timer) => !ts_lt (⟨9, 9, 9, 9, false, ⟨2, 0⟩⟩ : Timer).time x.time)
          [⟨0, 0, 0, 0, false, ⟨1, 0⟩⟩, ⟨1, 0, 0, 0, false, ⟨2, 0⟩⟩,
           ⟨2, 0, 0, 0, false, ⟨2, 0⟩⟩, ⟨3, 0, 0, 0, false, ⟨3, 0⟩⟩]) :=
  list_add_stable_spec ⟨9, 9, 9, 9, false, ⟨2, 0⟩⟩
    [⟨0, 0, 0, 0, false, ⟨1, 0⟩⟩, ⟨1, 0, 0, 0, false, ⟨2, 0⟩⟩,
     ⟨2, 0, 0, 0, false, ⟨2, 0⟩⟩, ⟨3, 0, 0, 0, false, ⟨3, 0⟩⟩] (by decide)

theorem sorted_list_remove (t : Timer) {l : List Timer} (h : SortedT l) :
    SortedT (list_remove t l) :=
  List.Pairwise.sublist (List.eraseP_sublist l) h

theorem sorted_list_resort (t : Timer) {l : List Timer} (h : SortedT l) :
    SortedT (list_resort t l) :=
  sorted_list_add t (sorted_list_remove t h)

theorem run_loop_sorted (now : Timespec) :
    ∀ (fuel : Nat) (front rest free fired : List Timer),
      SortedT (front ++ rest) →
      SortedT (tmr_run_loop now fuel front rest free fired).timers := by
  intro fuel
  induction fuel with
  | zero => intro front rest free fired h; exact h
  | succ fuel ih =>
    intro front rest free fired h
    cases rest with
    | nil =>
      simp only [tmr_run_loop]
      simpa using h
    | cons t rest' =>
      have hsub : SortedT (front ++ rest') :=
        List.Pairwise.sublist
          (List.Sublist.append_left (List.sublist_cons_self t rest') front) h
      simp only [tmr_run_loop]
      cases hb : ts_lt now t.time with
      | true => simpa using h
      | false =>
        simp only [Bool.false_eq_true, if_false]
        cases hp : t.periodic with
        | true =>
          simp only [if_true]
          have hfull :
              SortedT (list_add { t with time := add_nsecs t.time t.nsecs }
                (front ++ rest')) :=
            sorted_list_add _ hsub
          rw [hp] at hfull
          cases rest' with
          | nil =>
            apply ih
            simpa using hfull
          | cons h2 tl =>
            apply ih
            rw [List.takeWhile_append_dropWhile]
            exact hfull
        | false =>
          simp only [Bool.false_eq_true, if_false]
          exact ih front rest' (t :: free) (fired ++ [t]) hsub

theorem applyOp_sorted (s : TmrState) (op : Op) (h : SortedT s.timers) :
    SortedT ((applyOp s op).timers) := by
  cases op with
  | create now proc data nsecs periodic mallocOk freshId =>
    obtain ⟨act, free⟩ := s
    cases free with
    | nil =>
      cases mallocOk with
      | true => exact sorted_list_add _ h
      | false => exact h
    | cons u l => exact sorted_list_add _ h
  | cancel tid =>
    simp only [applyOp]
    cases s.timers.find? (fun x => x.id == tid) with
    | none => exact h
    | some t => exact sorted_list_remove t h
  | reset now tid =>
    simp only [applyOp]
    cases s.timers.find? (fun x => x.id == tid) with
    | none => exact h
    | some t => exact sorted_list_resort _ h
  | run now fuel => exact run_loop_sorted now fuel [] s.timers s.free_timers [] h

/-- Claim C2 (confirmed): starting from the empty state, after any sequence
of create/cancel/reset/run operations the active list is non-decreasing by
(tv_sec, tv_nsec) head-to-tail; moreover insertion, removal and resorting
each preserve that order. -/
theorem active_list_sorted_spec :
    (∀ ops : List Op, SortedT ((ops.foldl applyOp initState).timers)) ∧
    (∀ (t : Timer) (l : List Timer), SortedT l → SortedT (list_add t l)) ∧
    (∀ (t : Timer) (l : List Timer), SortedT l → SortedT (list_remove t l)) ∧
    (∀ (t : Timer) (l : List Timer), SortedT l → SortedT (list_resort t l)) := by
  have hfold : ∀ (ops : List Op) (s : TmrState), SortedT s.timers →
      SortedT ((ops.foldl applyOp s).timers) := by
    intro ops
    induction ops with
    | nil => intro s h; exact h
    | cons op ops ih => intro s h; exact ih _ (applyOp_sorted s op h)
  exact ⟨fun ops => hfold ops initState List.Pairwise.nil,
    fun t l h => sorted_list_add t h,
    fun t l h => sorted_list_remove t h,
    fun t l h => sorted_list_resort t h⟩

theorem active_list_sorted_spec_witness :
    SortedT (([Op.create ⟨0, 0⟩ 1 1 2000000000 true true 0,
        Op.create ⟨0, 0⟩ 2 2 1000000000 false true 1,
        Op.run ⟨1, 0⟩ 5, Op.reset ⟨2, 0⟩ 0,
        Op.cancel 0].foldl applyOp initState).timers) ∧
    SortedT (list_add ⟨7, 0, 0, 0, false, ⟨1, 5⟩⟩
      [⟨0, 0, 0, 0, false, ⟨1, 0⟩⟩, ⟨1, 0, 0, 0, false, ⟨2, 0⟩⟩]) ∧
    SortedT (list_remove ⟨0, 0, 0, 0, false, ⟨1, 0⟩⟩
      [⟨0, 0, 0, 0, false, ⟨1, 0⟩⟩, ⟨1, 0, 0, 0, false, ⟨2, 0⟩⟩]) ∧
    SortedT (list_resort ⟨1, 0, 0, 0, false, ⟨3, 0⟩⟩
      [⟨0, 0, 0, 0, false, ⟨1, 0⟩⟩, ⟨1, 0, 0, 0, false, ⟨2, 0⟩⟩]) :=
  ⟨active_list_sorted_spec.1 _,
   active_list_sorted_spec.2.1 _ _ (by decide),
   active_list_sorted_spec.2.2.1 _ _ (by decide),
   active_list_sorted_spec.2.2.2 _ _ (by decide)⟩

theorem contains_true_of_mem {S : List Nat} {i : Nat} (h : i ∈ S) :
    S.contains i = true := by
  unfold List.contains
  exact List.elem_eq_true_of_mem h

theorem contains_false_of_not_mem {S : List Nat} {i : Nat} (h : i ∉ S) :
    S.contains i = false := by
  unfold List.contains
  rw [← List.elem_iff] at h
  simpa using h

/-- Claim C3 (confirmed): whenever the run loop fires a due periodic timer
`t`, it continues with the same list except that `t` is replaced — at its
new sorted position — by the record whose expiry is exactly the previous
expiry advanced by the timer's own interval (`add_nsecs t.time t.nsecs`,
which denotes `t.time + t.nsecs`); the current time plays no part in the
new expiry, so phase is preserved no matter how late the firing occurs. -/
theorem periodic_reschedule_spec (now : Timespec) (fuel : Nat)
    (front rest free fired : List Timer) (t : Timer)
    (hdue : ts_lt now t.time = false) (hper : t.periodic = true) :
    ts_denote (add_nsecs t.time t.nsecs) = ts_denote t.time + t.nsecs ∧
    ∃ l1 l2 front' rest',
      l1 ++ l2 = front ++ rest ∧
      front' ++ rest' =
        l1 ++ ({ t with time := add_nsecs t.time t.nsecs } : Timer) :: l2 ∧
      tmr_run_loop now (fuel + 1) front (t :: rest) free fired =
        tmr_run_loop now fuel front' rest' free (fired ++ [t]) := by
  refine ⟨add_nsecs_denote t.time t.nsecs, ?_⟩
  cases rest with
  | nil =>
    obtain ⟨l1, l2, e1, e2⟩ :=
      list_add_decomp { t with time := add_nsecs t.time t.nsecs } (front ++ [])
    refine ⟨l1, l2,
      list_add { t with time := add_nsecs t.time t.nsecs } (front ++ []), [],
      e1.symm, by simpa using e2, ?_⟩
    simp only [tmr_run_loop]
    rw [if_neg (by simp [hdue]), if_pos hper]
  | cons h2 tl =>
    obtain ⟨l1, l2, e1, e2⟩ :=
      list_add_decomp { t with time := add_nsecs t.time t.nsecs }
        (front ++ h2 :: tl)
    refine ⟨l1, l2,
      (list_add { t with time := add_nsecs t.time t.nsecs }
        (front ++ h2 :: tl)).takeWhile (fun x => x.id != h2.id),
      (list_add { t with time := add_nsecs t.time t.nsecs }
        (front ++ h2 :: tl)).dropWhile (fun x => x.id != h2.id),
      e1.symm, ?_, ?_⟩
    · rw [List.takeWhile_append_dropWhile, e2]
    · simp only [tmr_run_loop]
      rw [if_neg (by simp [hdue]), if_pos hper]

theorem periodic_reschedule_spec_witness :
    ts_denote (add_nsecs (⟨5, 0⟩ : Timespec) 1000000000) =
      ts_denote (⟨5, 0⟩ : Timespec) + 1000000000 ∧
    ∃ l1 l2 front' rest',
      l1 ++ l2 = [] ++ [(⟨1, 1, 1, 7, false, ⟨20, 0⟩⟩ : Timer)] ∧
      front' ++ rest' =
        l1 ++ ({ (⟨0, 0, 0, 1000000000, true, ⟨5, 0⟩⟩ : Timer) with
          time := add_nsecs (⟨5, 0⟩ : Timespec) 1000000000 } : Timer) :: l2 ∧
      tmr_run_loop ⟨10, 0⟩ (3 + 1) [] (⟨0, 0, 0, 1000000000, true, ⟨5, 0⟩⟩ ::
          [(⟨1, 1, 1, 7, false, ⟨20, 0⟩⟩ : Timer)]) [] [] =
        tmr_run_loop ⟨10, 0⟩ 3 front' rest' []
          ([] ++ [⟨0, 0, 0, 1000000000, true, ⟨5, 0⟩⟩]) :=
  periodic_reschedule_spec ⟨10, 0⟩ 3 [] [⟨1, 1, 1, 7, false, ⟨20, 0⟩⟩] [] []
    ⟨0, 0, 0, 1000000000, true, ⟨5, 0⟩⟩ (by decide) (by decide)

theorem filter_cons_false {p : Timer → Bool} {t : Timer} (l : List Timer)
    (h : p t = false) : (t :: l).filter p = l.filter p := by
  simp [List.filter_cons, h]

theorem filter_cons_congr {p : Timer → Bool} (a : Timer) {l1 l2 : List Timer}
    (h : l1.filter p = l2.filter p) :
    (a :: l1).filter p = (a :: l2).filter p := by
  simp only [List.filter_cons, h]

theorem run_loop_main (now : Timespec) :
    ∀ (d X free fired : List Timer) (fuel : Nat),
      (∀ t ∈ d, ts_lt now t.time = false) →
      (∀ t ∈ d, t.periodic = true → ts_lt now (add_nsecs t.time t.nsecs) = true) →
      (∀ y ∈ X, ts_lt now y.time = true) →
      ((d ++ X).map Timer.id).Nodup →
      d.length + 1 ≤ fuel →
      ∃ fin : List Timer,
        tmr_run_loop now fuel [] (d ++ X) free fired =
          ⟨fin, (d.filter fun u => !u.periodic).reverse ++ free,
            fired ++ d, true⟩ ∧
        (∀ S : List Nat, (∀ i ∈ S, i ∉ d.map Timer.id) →
          fin.filter (fun y => S.contains y.id) =
            X.filter (fun y => S.contains y.id)) ∧
        (∀ p ∈ d, p.periodic = true →
          ({ p with time := add_nsecs p.time p.nsecs } : Timer) ∈ fin) := by
  intro d
  induction d with
  | nil =>
    intro X free fired fuel hdue hresc hX hnodup hfuel
    cases fuel with
    | zero => simp at hfuel
    | succ f =>
      cases X with
      | nil =>
        refine ⟨[], ?_, fun S hS => rfl, by simp⟩
        simp [tmr_run_loop]
      | cons h2 tl =>
        have hb : ts_lt now h2.time = true := hX h2 (by simp)
        refine ⟨h2 :: tl, ?_, fun S hS => rfl, by simp⟩
        simp only [List.nil_append, tmr_run_loop]
        rw [if_pos hb]
        simp
  | cons t d' ih =>
    intro X free fired fuel hdue hresc hX hnodup hfuel
    cases fuel with
    | zero => simp at hfuel
    | succ f =>
      have htdue : ts_lt now t.time = false := hdue t (by simp)
      have hdue' : ∀ u ∈ d', ts_lt now u.time = false :=
        fun u hu => hdue u (by simp [hu])
      have hresc' : ∀ u ∈ d', u.periodic = true →
          ts_lt now (add_nsecs u.time u.nsecs) = true :=
        fun u hu => hresc u (by simp [hu])
      simp only [List.cons_append, List.map_cons] at hnodup
      obtain ⟨hid_notin, hnd'⟩ := List.nodup_cons.mp hnodup
      simp only [List.length_cons] at hfuel
      simp only [List.cons_append, tmr_run_loop]
      rw [if_neg (by simp [htdue])]
      by_cases hp : t.periodic = true
      case neg =>
        have hpf : t.periodic = false := by simpa using hp
        rw [if_neg hp]
        obtain ⟨fin, he, hfil, hper⟩ :=
          ih X (t :: free) (fired ++ [t]) f hdue' hresc' hX hnd' (by omega)
        refine ⟨fin, ?_, ?_, ?_⟩
        · rw [he]
          have e1 : (fired ++ [t]) ++ d' = fired ++ t :: d' := by simp
          have e2 : (List.filter (fun u => !u.periodic) d').reverse ++
              (t :: free) =
              (List.filter (fun u => !u.periodic) (t :: d')).reverse ++ free := by
            simp [List.filter_cons, hpf]
          rw [e1, e2]
        · intro S hS
          exact hfil S fun i hi hmem => hS i hi (by simp [hmem])
        · intro p hpmem hpper
          rcases List.mem_cons.mp hpmem with rfl | hpmem
          · simp [hpf] at hpper
          · exact hper p hpmem hpper
      case pos =>
        rw [if_pos hp]
        have ht'gt : ts_lt now (add_nsecs t.time t.nsecs) = true :=
          hresc t (by simp) hp
        have hplace : ∀ e ∈ d',
            ts_lt (add_nsecs t.time t.nsecs) e.time = false :=
          fun e he => ts_between (hdue' e he) ht'gt
        cases d' with
        | nil =>
          cases X with
          | nil =>
            cases f with
            | zero => omega
            | succ f2 =>
              refine ⟨[{ t with time := add_nsecs t.time t.nsecs }], ?_, ?_, ?_⟩
              · simp [tmr_run_loop, list_add, hp]
              · intro S hS
                have hts : (fun y => S.contains y.id)
                    ({ t with time := add_nsecs t.time t.nsecs } : Timer) = false :=
                  contains_false_of_not_mem fun hmem => hS t.id hmem (by simp)
                rw [List.filter_nil, filter_cons_false _ hts, List.filter_nil]
              · intro p hpmem hpper
                rcases List.mem_cons.mp hpmem with hpt | h0
                · subst hpt; simp
                · simp at h0
          | cons h2 tl =>
            have hh2 : ts_lt now h2.time = true := hX h2 (by simp)
            have hid2 : t.id ≠ h2.id := fun hcontra =>
              hid_notin (by simp [hcontra])
            cases f with
            | zero => omega
            | succ f2 =>
              cases hc : ts_lt (add_nsecs t.time t.nsecs) h2.time with
              | true =>
                refine ⟨{ t with time := add_nsecs t.time t.nsecs } ::
                  h2 :: tl, ?_, ?_, ?_⟩
                · simp only [List.nil_append, list_add, hc, if_true,
                    List.takeWhile_cons, List.dropWhile_cons]
                  simp only [show (({ t with time := add_nsecs t.time t.nsecs } :
                      Timer).id != h2.id) = true by simpa using hid2,
                    bne_self_eq_false, Bool.false_eq_true, if_false, if_true,
                    List.takeWhile_nil]
                  simp only [tmr_run_loop]
                  rw [if_pos hh2]
                  simp [hp]
                · intro S hS
                  have hts : (fun y => S.contains y.id)
                      ({ t with time := add_nsecs t.time t.nsecs } : Timer) =
                        false :=
                    contains_false_of_not_mem fun hmem => hS t.id hmem (by simp)
                  exact filter_cons_false _ hts
                · intro p hpmem hpper
                  rcases List.mem_cons.mp hpmem with hpt | h0
                  · subst hpt; simp
                  · simp at h0
              | false =>
                refine ⟨h2 :: list_add
                  { t with time := add_nsecs t.time t.nsecs } tl, ?_, ?_, ?_⟩
                · simp only [List.nil_append, list_add, hc, Bool.false_eq_true,
                    if_false, List.takeWhile_cons, List.dropWhile_cons,
                    bne_self_eq_false, if_true]
                  simp only [tmr_run_loop]
                  rw [if_pos hh2]
                  simp [hp]
                · intro S hS
                  have hts : (fun y => S.contains y.id)
                      ({ t with time := add_nsecs t.time t.nsecs } : Timer) =
                        false :=
                    contains_false_of_not_mem fun hmem => hS t.id hmem (by simp)
                  exact filter_cons_congr h2 (filter_list_add_neg _ _ _ hts)
                · intro p hpmem hpper
                  rcases List.mem_cons.mp hpmem with hpt | h0
                  · subst hpt; simp [mem_list_add]
                  · simp at h0
        | cons a d'' =>
          have hdist : list_add { t with time := add_nsecs t.time t.nsecs }
              ((a :: d'') ++ X) =
              (a :: d'') ++
                list_add { t with time := add_nsecs t.time t.nsecs } X :=
            list_add_append _ _ _ fun e he => hplace e he
          have hX' : ∀ y ∈ list_add
              { t with time := add_nsecs t.time t.nsecs } X,
              ts_lt now y.time = true := by
            intro y hy
            rcases mem_list_add.mp hy with rfl | hy
            · exact ht'gt
            · exact hX y hy
          have hpermids : List.Perm
              (((a :: d'') ++ list_add
                { t with time := add_nsecs t.time t.nsecs } X).map Timer.id)
              (t.id :: ((a :: d'') ++ X).map Timer.id) := by
            have p1 := List.Perm.append_left (a :: d'')
              (list_add_perm { t with time := add_nsecs t.time t.nsecs } X)
            have p2 : List.Perm
                ((a :: d'') ++ { t with time := add_nsecs t.time t.nsecs } :: X)
                ({ t with time := add_nsecs t.time t.nsecs } ::
                  ((a :: d'') ++ X)) :=
              List.perm_middle
            simpa using (p1.trans p2).map Timer.id
          have hnodup' : (((a :: d'') ++ list_add
              { t with time := add_nsecs t.time t.nsecs } X).map
                Timer.id).Nodup := by
            apply hpermids.nodup_iff.mpr
            rw [List.nodup_cons]
            exact ⟨hid_notin, hnd'⟩
          obtain ⟨fin, he, hfil, hper⟩ := ih
            (list_add { t with time := add_nsecs t.time t.nsecs } X) free
            (fired ++ [t]) f hdue' hresc' hX' hnodup' (by omega)
          refine ⟨fin, ?_, ?_, ?_⟩
          · simp only [List.cons_append]
            simp only [List.cons_append] at hdist
            simp only [List.nil_append]
            rw [hdist]
            rw [List.takeWhile_cons, List.dropWhile_cons]
            simp only [bne_self_eq_false, Bool.false_eq_true, if_false, if_true]
            simp only [List.cons_append] at he
            rw [he]
            have e1 : (fired ++ [t]) ++ (a :: d'') = fired ++ t :: a :: d'' := by
              simp
            have e2 : (List.filter (fun u => !u.periodic) (a :: d'')).reverse ++
                free =
                (List.filter (fun u => !u.periodic) (t :: a :: d'')).reverse ++
                  free := by
              simp [List.filter_cons, hp]
            rw [e1, e2]
          · intro S hS
            have hSd : ∀ i ∈ S, i ∉ (a :: d'').map Timer.id :=
              fun i hi hmem => hS i hi (by simp at hmem ⊢; exact Or.inr hmem)
            rw [hfil S hSd]
            exact filter_list_add_neg _ _ _
              (contains_false_of_not_mem fun hmem => hS t.id hmem (by simp))
          · intro p hpmem hpper
            rcases List.mem_cons.mp hpmem with hpt | hpmem
            · subst hpt
              have hdisj : ∀ i ∈ [p.id], i ∉ (a :: d'').map Timer.id := by
                intro i hi
                simp only [List.mem_singleton] at hi
                subst hi
                intro hmem
                apply hid_notin
                simp only [List.map_append, List.mem_append]
                exact Or.inl hmem
              have h1 := hfil [p.id] hdisj
              have h2 : (list_add { p with time := add_nsecs p.time p.nsecs }
                  X).filter (fun y => [p.id].contains y.id) =
                  [{ p with time := add_nsecs p.time p.nsecs }] := by
                apply filter_list_add_pos
                · exact contains_true_of_mem (by simp)
                · intro x hx
                  apply contains_false_of_not_mem
                  intro hmem
                  simp only [List.mem_singleton] at hmem
                  apply hid_notin
                  simp only [List.map_append, List.mem_append]
                  exact Or.inr (List.mem_map.mpr ⟨x, hx, hmem⟩)
              have h3 : ({ p with time := add_nsecs p.time p.nsecs } : Timer) ∈
                  fin.filter (fun y => [p.id].contains y.id) := by
                rw [h1, h2]
                simp
              exact List.mem_of_mem_filter h3
            · exact hper p hpmem hpper

/-- Claim C1 (amended): if the active list is sorted, its node addresses are
distinct, and every due periodic timer reschedules to an expiry strictly
after `now`, then tmr_run fires exactly the timers of the due prefix, once
each, in list (ascending-expiry) order, stops at the first timer with
expiry > now, leaves every later timer's fields and relative list position
unchanged, and retires the due one-shot timers onto the free list.  Without
the rescheduling condition a periodic timer whose new expiry is still ≤ now
can be revisited and fired again in the same pass (see the
counterexample). -/
theorem tmr_run_fires_due_spec (now : Timespec) (fuel : Nat) (s : TmrState)
    (hs : SortedT s.timers)
    (hn : (s.timers.map Timer.id).Nodup)
    (hr : ∀ u ∈ s.timers, u.periodic = true → ts_lt now u.time = false →
      ts_lt now (add_nsecs u.time u.nsecs) = true)
    (hf : s.timers.length + 1 ≤ fuel) :
    (tmr_run now fuel s).completed = true ∧
    (tmr_run now fuel s).fired =
      s.timers.takeWhile (fun u => !ts_lt now u.time) ∧
    SortedT (tmr_run now fuel s).fired ∧
    (∀ u ∈ (tmr_run now fuel s).fired, ts_lt now u.time = false) ∧
    (tmr_run now fuel s).timers.filter (fun y =>
        ((s.timers.dropWhile (fun u => !ts_lt now u.time)).map
          Timer.id).contains y.id) =
      s.timers.dropWhile (fun u => !ts_lt now u.time) ∧
    (tmr_run now fuel s).free_timers =
      ((s.timers.takeWhile (fun u => !ts_lt now u.time)).filter
        (fun u => !u.periodic)).reverse ++ s.free_timers := by
  have hsplit : s.timers.takeWhile (fun u => !ts_lt now u.time) ++
      s.timers.dropWhile (fun u => !ts_lt now u.time) = s.timers :=
    List.takeWhile_append_dropWhile _ _
  have htsub : List.Sublist
      (s.timers.takeWhile (fun u => !ts_lt now u.time)) s.timers :=
    List.takeWhile_sublist _
  have hd_due : ∀ u ∈ s.timers.takeWhile (fun u => !ts_lt now u.time),
      ts_lt now u.time = false := by
    intro u hu
    have := List.mem_takeWhile_imp hu
    simpa using this
  have hresc : ∀ u ∈ s.timers.takeWhile (fun u => !ts_lt now u.time),
      u.periodic = true → ts_lt now (add_nsecs u.time u.nsecs) = true :=
    fun u hu hper => hr u (htsub.subset hu) hper (hd_due u hu)
  have hx_gt : ∀ y ∈ s.timers.dropWhile (fun u => !ts_lt now u.time),
      ts_lt now y.time = true := sorted_dropWhile_gt now hs
  have hn2 : (((s.timers.takeWhile (fun u => !ts_lt now u.time)) ++
      (s.timers.dropWhile (fun u => !ts_lt now u.time))).map
        Timer.id).Nodup := by
    rw [hsplit]; exact hn
  have hfuel2 : (s.timers.takeWhile (fun u => !ts_lt now u.time)).length + 1 ≤
      fuel := by
    have := htsub.length_le
    omega
  obtain ⟨fin, he, hfil, hper⟩ := run_loop_main now
    (s.timers.takeWhile (fun u => !ts_lt now u.time))
    (s.timers.dropWhile (fun u => !ts_lt now u.time))
    s.free_timers [] fuel hd_due hresc hx_gt hn2 hfuel2
  rw [hsplit] at he
  have hrun : tmr_run now fuel s =
      ⟨fin, ((s.timers.takeWhile (fun u => !ts_lt now u.time)).filter
          (fun u => !u.periodic)).reverse ++ s.free_timers,
        [] ++ s.timers.takeWhile (fun u => !ts_lt now u.time), true⟩ := he
  have hdisj : ∀ i ∈ (s.timers.dropWhile
      (fun u => !ts_lt now u.time)).map Timer.id,
      i ∉ (s.timers.takeWhile (fun u => !ts_lt now u.time)).map Timer.id := by
    intro i hi hmem
    simp only [List.map_append] at hn2
    exact (List.nodup_append.mp hn2).2.2 hmem hi
  have hfx := hfil ((s.timers.dropWhile (fun u => !ts_lt now u.time)).map
    Timer.id) hdisj
  have hxself : (s.timers.dropWhile (fun u => !ts_lt now u.time)).filter
      (fun y => ((s.timers.dropWhile (fun u => !ts_lt now u.time)).map
        Timer.id).contains y.id) =
      s.timers.dropWhile (fun u => !ts_lt now u.time) := by
    apply List.filter_eq_self.mpr
    intro y hy
    exact contains_true_of_mem (List.mem_map.mpr ⟨y, hy, rfl⟩)
  refine ⟨by rw [hrun], by rw [hrun]; simp, ?_, ?_, ?_, by rw [hrun]⟩
  · rw [hrun]
    simp only [List.nil_append]
    exact List.Pairwise.sublist htsub hs
  · rw [hrun]
    simp only [List.nil_append]
    exact hd_due
  · rw [hrun]
    simp only []
    rw [hfx, hxself]

/-- Claim C1, counterexample to the original statement: with the sorted
active list [A, B] where A is periodic with interval 0 and expiry (5 s),
and B is one-shot with the same expiry, running at now = (10 s) fires A,
then B, then A AGAIN (the rescheduled A, re-inserted after B because of the
equal-deadline tie-break, is reached again through the captured next
pointer): the sequence of callback invocations has ids [0, 1, 0] and is not
the due prefix [0, 1] — a due periodic timer can fire more than once in a
single pass. -/
theorem tmr_run_fires_due_cex :
    SortedT [(⟨0, 0, 0, 0, true, ⟨5, 0⟩⟩ : Timer),
      ⟨1, 1, 1, 0, false, ⟨5, 0⟩⟩] ∧
    (([(⟨0, 0, 0, 0, true, ⟨5, 0⟩⟩ : Timer),
      ⟨1, 1, 1, 0, false, ⟨5, 0⟩⟩]).map Timer.id).Nodup ∧
    (tmr_run ⟨10, 0⟩ 10 ⟨[⟨0, 0, 0, 0, true, ⟨5, 0⟩⟩,
      ⟨1, 1, 1, 0, false, ⟨5, 0⟩⟩], []⟩).completed = true ∧
    (tmr_run ⟨10, 0⟩ 10 ⟨[⟨0, 0, 0, 0, true, ⟨5, 0⟩⟩,
      ⟨1, 1, 1, 0, false, ⟨5, 0⟩⟩], []⟩).fired.map Timer.id = [0, 1, 0] ∧
    ([(⟨0, 0, 0, 0, true, ⟨5, 0⟩⟩ : Timer),
      ⟨1, 1, 1, 0, false, ⟨5, 0⟩⟩].takeWhile
        (fun u => !ts_lt ⟨10, 0⟩ u.time)).map Timer.id = [0, 1] ∧
    (tmr_run ⟨10, 0⟩ 10 ⟨[⟨0, 0, 0, 0, true, ⟨5, 0⟩⟩,
      ⟨1, 1, 1, 0, false, ⟨5, 0⟩⟩], []⟩).fired ≠
      [(⟨0, 0, 0, 0, true, ⟨5, 0⟩⟩ : Timer),
        ⟨1, 1, 1, 0, false, ⟨5, 0⟩⟩].takeWhile
          (fun u => !ts_lt ⟨10, 0⟩ u.time) := by decide

theorem tmr_run_fires_due_spec_witness :
    (tmr_run ⟨3, 0⟩ 5 ⟨[⟨0, 0, 0, 1000000000, false, ⟨1, 0⟩⟩,
      ⟨1, 1, 1, 5000000000, true, ⟨2, 0⟩⟩,
      ⟨2, 2, 2, 7, false, ⟨9, 0⟩⟩], []⟩).completed = true ∧
    (tmr_run ⟨3, 0⟩ 5 ⟨[⟨0, 0, 0, 1000000000, false, ⟨1, 0⟩⟩,
      ⟨1, 1, 1, 5000000000, true, ⟨2, 0⟩⟩,
      ⟨2, 2, 2, 7, false, ⟨9, 0⟩⟩], []⟩).fired =
      [(⟨0, 0, 0, 1000000000, false, ⟨1, 0⟩⟩ : Timer),
        ⟨1, 1, 1, 5000000000, true, ⟨2, 0⟩⟩,
        ⟨2, 2, 2, 7, false, ⟨9, 0⟩⟩].takeWhile
          (fun u => !ts_lt ⟨3, 0⟩ u.time) :=
  ⟨(tmr_run_fires_due_spec ⟨3, 0⟩ 5 ⟨[⟨0, 0, 0, 1000000000, false, ⟨1, 0⟩⟩,
      ⟨1, 1, 1, 5000000000, true, ⟨2, 0⟩⟩, ⟨2, 2, 2, 7, false, ⟨9, 0⟩⟩], []⟩
      (by decide) (by decide) (by decide) (by decide)).1,
   (tmr_run_fires_due_spec ⟨3, 0⟩ 5 ⟨[⟨0, 0, 0, 1000000000, false, ⟨1, 0⟩⟩,
      ⟨1, 1, 1, 5000000000, true, ⟨2, 0⟩⟩, ⟨2, 2, 2, 7, false, ⟨9, 0⟩⟩], []⟩
      (by decide) (by decide) (by decide) (by decide)).2.1⟩
